import Mathlib

/-!
Shallow embedding of the `cairo` HTTP framework (Rust) for verification.

Bytes are modelled as `Char` (the repository's framing and parsing operate on
text; all wire inputs of interest are ASCII, and `str::from_utf8` is modelled
as the identity).  Machine integers (`usize`, `u16`) are modelled as `Nat`;
where the Rust code performs an unsigned subtraction that can underflow, the
model returns an explicit `underflow` outcome (a panic in debug builds; in
release builds the wrap-around leads to a failure, never to a normal return).
Rust panics (`assert!`, `unimplemented!`) are modelled as explicit outcomes
(`Option` / a dedicated constructor).
-/

/-- Unicode `White_Space` predicate, as used by Rust's `char::is_whitespace`
(`str::split_whitespace`, `str::trim`). -/
def isWhitespaceChar (c : Char) : Bool :=
  decide ((9 ≤ c.toNat ∧ c.toNat ≤ 13) ∨ c.toNat = 32 ∨ c.toNat = 133 ∨
    c.toNat = 160 ∨ c.toNat = 5760 ∨ (8192 ≤ c.toNat ∧ c.toNat ≤ 8202) ∨
    c.toNat = 8232 ∨ c.toNat = 8233 ∨ c.toNat = 8239 ∨ c.toNat = 8287 ∨
    c.toNat = 12288)

/-- ASCII uppercase mapping; models `str::to_uppercase` on the ASCII inputs
relevant to HTTP method tokens. -/
def asciiUpper (c : Char) : Char :=
  if 97 ≤ c.toNat ∧ c.toNat ≤ 122 then Char.ofNat (c.toNat - 32) else c

/-- Rust `str::split` with a two-character separator (`"\r\n"` and `": "` are
the separators used by the repository). -/
def splitOn2 (a b : Char) : List Char → List (List Char)
  | [] => [[]]
  | [c] => [[c]]
  | c :: d :: rest =>
    if c = a ∧ d = b then [] :: splitOn2 a b rest
    else
      match splitOn2 a b (d :: rest) with
      | [] => [[c]]
      | s :: ss => (c :: s) :: ss

/-- Helper for `splitWhitespace`; `acc` is the current token, reversed. -/
def splitWhitespaceAux (acc : List Char) : List Char → List (List Char)
  | [] => if acc = [] then [] else [acc.reverse]
  | c :: rest =>
    if isWhitespaceChar c then
      if acc = [] then splitWhitespaceAux [] rest
      else acc.reverse :: splitWhitespaceAux [] rest
    else splitWhitespaceAux (c :: acc) rest

/-- Rust `str::split_whitespace`: whitespace-separated tokens, empty tokens
discarded. -/
def splitWhitespace (s : List Char) : List (List Char) :=
  splitWhitespaceAux [] s

/-- Rust `str::splitn(2, ": ")` followed by taking both pieces: split a header
line at the first occurrence of `": "`; `none` when the separator is absent. -/
def splitColonSpace : List Char → Option (List Char × List Char)
  | [] => none
  | [_] => none
  | c :: d :: rest =>
    if c = ':' ∧ d = ' ' then some ([], rest)
    else
      match splitColonSpace (d :: rest) with
      | none => none
      | some (pre, post) => some (c :: pre, post)

/-- Rust `str::trim` (both ends, whitespace per `char::is_whitespace`). -/
def trimChars (s : List Char) : List Char :=
  ((s.dropWhile isWhitespaceChar).reverse.dropWhile isWhitespaceChar).reverse

/-- One decimal digit of an ASCII numeral. -/
def isAsciiDigit (c : Char) : Bool :=
  decide (48 ≤ c.toNat ∧ c.toNat ≤ 57)

/-- Numeric value of a list of ASCII digits, most significant first. -/
def natOfDigits (s : List Char) : Nat :=
  s.foldl (fun acc c => 10 * acc + (c.toNat - 48)) 0

/-- Rust `str::parse::<usize>()`: an optional leading `'+'`, then at least one
ASCII digit.  Overflow of `usize` is not modelled (`Nat` is unbounded). -/
def parseUsize (s : List Char) : Option Nat :=
  let digits := match s with
    | '+' :: rest => rest
    | other => other
  if digits = [] then none
  else if digits.all isAsciiDigit then some (natOfDigits digits) else none

/-- HTTP methods, from `src/http/method.rs`. -/
inductive Method
  | get
  | post
  | options
  | head
  | put
  | delete
  | patch
deriving DecidableEq

def litGET : List Char := "GET".toList
def litPOST : List Char := "POST".toList
def litOPTIONS : List Char := "OPTIONS".toList
def litHEAD : List Char := "HEAD".toList
def litPUT : List Char := "PUT".toList
def litDELETE : List Char := "DELETE".toList
def litPATCH : List Char := "PATCH".toList

/-- `TryFrom<&str> for Method`: uppercase the token, then match the seven
recognized method names; `none` models `Err(InvalidMethodError)`. -/
def methodTryFrom (s : List Char) : Option Method :=
  let u := s.map asciiUpper
  if u = litGET then some Method.get
  else if u = litPOST then some Method.post
  else if u = litOPTIONS then some Method.options
  else if u = litHEAD then some Method.head
  else if u = litPUT then some Method.put
  else if u = litDELETE then some Method.delete
  else if u = litPATCH then some Method.patch
  else none

/-- `Parts`: everything extractable from a request besides the body
(`src/http/request.rs`). -/
structure Parts where
  method : Method
  path : List Char
  headers : List (List Char × List Char)
  pathParams : List (List Char)
deriving DecidableEq

/-- `Request`: parts plus an optional body (`src/http/request.rs`). -/
structure Request where
  parts : Parts
  body : Option (List Char)
deriving DecidableEq

/-- Outcome of `TryFrom<&str> for Request`: success, the uniform
`InvalidRequestError`, or the `unimplemented!` panic taken on version
`HTTP/2.0`. -/
inductive ParseOutcome
  | ok (r : Request)
  | invalid
  | panicked
deriving DecidableEq

/-- Header-section parser: the loop over lines in `Request::try_from`.
Consumes lines up to the first empty line (exclusive); returns the parsed
name/value pairs and the remaining lines, or `none` when a non-empty line
lacks the `": "` separator. -/
def parseHeaderLines : List (List Char) →
    Option (List (List Char × List Char) × List (List Char))
  | [] => some ([], [])
  | l :: rest =>
    if l = [] then some ([], rest)
    else
      match splitColonSpace l with
      | none => none
      | some (n, v) =>
        match parseHeaderLines rest with
        | none => none
        | some (hs, rem) => some ((n, v) :: hs, rem)

def crlf : List Char := "\r\n".toList

def litHTTP20 : List Char := "HTTP/2.0".toList

/-- `TryFrom<&str> for Request` (`src/http/request.rs`): split on `"\r\n"`,
parse the request line as three whitespace-separated tokens (method, path,
version), panic on version `HTTP/2.0`, reject a fourth token, then parse
headers up to the first empty line and take the rejoined remainder as the
body (absent when empty). -/
def requestTryFrom (value : List Char) : ParseOutcome :=
  match splitOn2 '\r' '\n' value with
  | [] => ParseOutcome.invalid
  | requestLine :: rest =>
    match splitWhitespace requestLine with
    | [] => ParseOutcome.invalid
    | methodTok :: restToks =>
      match methodTryFrom methodTok with
      | none => ParseOutcome.invalid
      | some method =>
        match restToks with
        | [] => ParseOutcome.invalid
        | path :: restToks2 =>
          match restToks2 with
          | [] => ParseOutcome.invalid
          | version :: restToks3 =>
            if version = litHTTP20 then ParseOutcome.panicked
            else if restToks3 ≠ [] then ParseOutcome.invalid
            else
              match parseHeaderLines rest with
              | none => ParseOutcome.invalid
              | some (headers, remaining) =>
                let body := List.intercalate crlf remaining
                ParseOutcome.ok
                  { parts :=
                      { method := method, path := path, headers := headers,
                        pathParams := [] },
                    body := if body = [] then none else some body }

/-- `Response` (`src/http/response.rs`): status code, headers, body. -/
structure Response where
  statusCode : Nat
  headers : List (List Char × List Char)
  body : List Char
deriving DecidableEq

def litContentType : List Char := "Content-Type".toList
def litTextPlain : List Char := "text/plain".toList
def contentTypeTextPlain : List Char × List Char := (litContentType, litTextPlain)
def litNotFound : List Char := "Not Found".toList
def litBadRequest : List Char := "Bad request".toList

/-- `IntoResponse for (u16, &str)` (`src/into_response.rs`). -/
def intoResponsePair (status : Nat) (text : List Char) : Response :=
  { statusCode := status, headers := [contentTypeTextPlain], body := text }

/-- The fixed 404 response produced by `Router::call` on lookup failure:
`(404, "Not Found").into_response()`. -/
def notFoundResponse : Response := intoResponsePair 404 litNotFound

/-- `extract_segments` inside `match_route` (`src/router.rs`): strip all
leading slashes, then split on `'/'`. -/
def extractSegments (path : List Char) : List (List Char) :=
  List.splitOn '/' (path.dropWhile (fun c => c == '/'))

/-- The per-segment loop of `match_route`: wildcard segments (leading `':'`)
capture the path segment; other segments must be equal; mismatch aborts. -/
def matchRouteGo : List (List Char × List Char) → Option (List (List Char))
  | [] => some []
  | (r, p) :: rest =>
    if r.head? = some ':' then Option.map (fun ps => p :: ps) (matchRouteGo rest)
    else if r = p then matchRouteGo rest
    else none

/-- `match_route` (`src/router.rs`): segment counts must agree, then match
segment-wise collecting wildcard captures. -/
def matchRoute (routePattern path : List Char) : Option (List (List Char)) :=
  let routeSegments := extractSegments routePattern
  let pathSegments := extractSegments path
  if routeSegments.length ≠ pathSegments.length then none
  else matchRouteGo (routeSegments.zip pathSegments)

/-- `PathRouter::find` (`src/path_router.rs`): look up the handler registered
for a method.  The `HashMap<Method, BoxedHandler>` is modelled as an
association list; a type-erased handler is its dispatch contract
`Request → Response`. -/
def pathRouterFind (pr : List (Method × (Request → Response))) (m : Method) :
    Option (Request → Response) :=
  match pr with
  | [] => none
  | (m2, h) :: rest => if m2 = m then some h else pathRouterFind rest m

/-- `Router` (`src/router.rs`): outer map from path pattern to per-method
handler table.  The `HashMap` is modelled as an association list whose order
stands for the (unspecified) iteration order. -/
structure Router where
  routes : List (List Char × List (Method × (Request → Response)))

/-- The `find_map` loop of `Router::call`, with the `found_path_params`
side-channel made explicit: every pattern match overwrites `fpp` (even when
the method lookup then fails); iteration stops at the first pattern whose
table also contains the method. -/
def routerFindMap (req : Request) :
    List (List Char × List (Method × (Request → Response))) →
    Option (List (List Char)) →
    Option (List (List Char)) × Option (Request → Response)
  | [], fpp => (fpp, none)
  | (pat, pr) :: rest, fpp =>
    match matchRoute pat req.parts.path with
    | some pathParams =>
      match pathRouterFind pr req.parts.method with
      | some h => (some pathParams, some h)
      | none => routerFindMap req rest (some pathParams)
    | none => routerFindMap req rest fpp

/-- `Router::call` (`src/router.rs`): run the lookup, install the captured
path parameters when any pattern matched, then dispatch or answer the fixed
404 response. -/
def routerCall (router : Router) (req : Request) : Response :=
  match routerFindMap req router.routes none with
  | (fpp, handlerOpt) =>
    let req2 := match fpp with
      | some pp => { req with parts := { req.parts with pathParams := pp } }
      | none => req
    match handlerOpt with
    | some h => h req2
    | none => notFoundResponse

/-- `ExtractError` (`src/extract.rs`): the single, payload-free extractor
error. -/
structure ExtractError where
deriving DecidableEq

/-- `IntoResponse for ExtractError`: the fixed 400 response. -/
def extractErrorIntoResponse (_e : ExtractError) : Response :=
  { statusCode := 400, headers := [contentTypeTextPlain], body := litBadRequest }

/-- The 400 response produced when any extraction fails during dispatch. -/
def badRequestResponse : Response := extractErrorIntoResponse {}

/-- `FromRequestParts for Path<usize>` (`src/extract.rs`): first path
parameter, parsed as `usize`. -/
def pathUsizeFromRequestParts (parts : Parts) : Except ExtractError Nat :=
  match parts.pathParams.head? with
  | none => Except.error {}
  | some s =>
    match parseUsize s with
    | none => Except.error {}
    | some n => Except.ok n

/-- `FromRequest for String` (`src/extract.rs`): `req.body.ok_or(ExtractError)`,
the raw body text unmodified. -/
def stringFromRequest (req : Request) : Except ExtractError (List Char) :=
  match req.body with
  | none => Except.error {}
  | some b => Except.ok b

/-- Left-to-right extraction of the leading (`FromRequestParts`) handler
arguments in the `handler_variable_args` expansion (`src/handler.rs`): stop at
the first failure. -/
def extractAllParts {α : Type} (extractors : List (Parts → Except ExtractError α))
    (parts : Parts) : Except ExtractError (List α) :=
  match extractors with
  | [] => Except.ok []
  | e :: rest =>
    match e parts with
    | Except.error err => Except.error err
    | Except.ok v =>
      match extractAllParts rest parts with
      | Except.error err => Except.error err
      | Except.ok vs => Except.ok (v :: vs)

/-- `call_handler` from the `handler_variable_args` macro (`src/handler.rs`),
uniformly over arity: extract each leading argument from the parts view left
to right (abort with the `ExtractError` 400 response on failure), then extract
the final argument from the whole request (same abort), then invoke the
function and convert its result via `IntoResponse`.  The macro's per-arity
tuples of heterogeneous `FromRequestParts` extractors are modelled as a list
over a common value type. -/
def callHandler {α β R : Type} (leadingExtractors : List (Parts → Except ExtractError α))
    (lastExtractor : Request → Except ExtractError β)
    (handlerFn : List α → β → R) (toResponse : R → Response) (req : Request) :
    Response :=
  match extractAllParts leadingExtractors req.parts with
  | Except.error e => extractErrorIntoResponse e
  | Except.ok vals =>
    match lastExtractor req with
    | Except.error e => extractErrorIntoResponse e
    | Except.ok lastVal => toResponse (handlerFn vals lastVal)

/-- Does `s` occur at the head of `l`?  Models comparing a `windows` slice /
`str::starts_with` against a literal. -/
def startsWithSeq : List Char → List Char → Bool
  | [], _ => true
  | _ :: _, [] => false
  | a :: s, b :: l => a = b && startsWithSeq s l

def termSeq : List Char := "\r\n\r\n".toList

/-- `buffer.windows(4).position(|window| window == b"\r\n\r\n")`
(`src/server.rs`): index of the first occurrence of the 4-byte header
terminator. -/
def findCRLF2 : List Char → Option Nat
  | [] => none
  | c :: rest =>
    if startsWithSeq termSeq (c :: rest) then some 0
    else Option.map (fun n => n + 1) (findCRLF2 rest)

def litContentLengthColon : List Char := "Content-Length:".toList

/-- The `Content-Length` scan in `fill_buffer` (`src/server.rs`): over the
header lines (the bytes before the terminator, split on `"\r\n"`), find the
first line starting with `"Content-Length:"`; its value is the text after the
first `':'`, trimmed and parsed as `usize` (parse failure is the InvalidData
error); missing header defaults to 0. -/
def scanContentLength : List (List Char) → Except Unit Nat
  | [] => Except.ok 0
  | l :: rest =>
    if startsWithSeq litContentLengthColon l then
      match (List.splitOn ':' l).get? 1 with
      | none => Except.error ()
      | some lengthStr =>
        match parseUsize (trimChars lengthStr) with
        | none => Except.error ()
        | some n => Except.ok n
    else scanContentLength rest

/-- Outcome of `fill_buffer`: the accumulated bytes, the UnexpectedEof error
(zero-byte read), the InvalidData error (bad `Content-Length`), or an
unsigned-subtraction underflow of `content_length` (a panic in debug builds;
in release builds the wrap-around makes the loop drain the source and fail,
never return normally). -/
inductive FillOutcome
  | ok (buf : List Char)
  | eofErr
  | invalidErr
  | underflow
deriving DecidableEq

/-- The second loop of `fill_buffer`: read until `content_length` more bytes
have been appended.  Each element of `chunks` is what one `stream.read`
delivers (at most the 512-byte scratch buffer in the Rust code; the logic does
not depend on the bound); an empty chunk or an exhausted source is a zero-byte
read. -/
def fillBody (buffer : List Char) (cl : Nat) : List (List Char) → FillOutcome
  | [] => if cl = 0 then FillOutcome.ok buffer else FillOutcome.eofErr
  | chunk :: rest =>
    if cl = 0 then FillOutcome.ok buffer
    else if chunk = [] then FillOutcome.eofErr
    else if cl < chunk.length then FillOutcome.underflow
    else fillBody (buffer ++ chunk) (cl - chunk.length) rest

/-- The first loop of `fill_buffer`: read and append until the terminator
appears, then compute the remaining body byte count (`Content-Length` minus
the body bytes already buffered) and run the body loop. -/
def fillHeaders (buffer : List Char) : List (List Char) → FillOutcome
  | [] => FillOutcome.eofErr
  | chunk :: rest =>
    if chunk = [] then FillOutcome.eofErr
    else
      let buffer2 := buffer ++ chunk
      match findCRLF2 buffer2 with
      | none => fillHeaders buffer2 rest
      | some p =>
        match scanContentLength (splitOn2 '\r' '\n' (buffer2.take p)) with
        | Except.error _ => FillOutcome.invalidErr
        | Except.ok cl =>
          if buffer2.length > p + 4 then
            if cl < buffer2.length - (p + 4) then FillOutcome.underflow
            else fillBody buffer2 (cl - (buffer2.length - (p + 4))) rest
          else fillBody buffer2 cl rest

/-- `fill_buffer` (`src/server.rs`), over a byte source delivering the given
chunks, one per `read` call. -/
def fillBuffer (chunks : List (List Char)) : FillOutcome :=
  fillHeaders [] chunks

/-- Outcome of `parse_request` (`src/server.rs`). -/
inductive ServeParseOutcome
  | ok (r : Request)
  | eofErr
  | invalidErr
  | panicked
  | underflow
deriving DecidableEq

/-- `parse_request` (`src/server.rs`): frame the bytes with `fill_buffer`,
then parse them with `Request::try_from` (its error becomes InvalidData). -/
def parseRequestChunks (chunks : List (List Char)) : ServeParseOutcome :=
  match fillBuffer chunks with
  | FillOutcome.eofErr => ServeParseOutcome.eofErr
  | FillOutcome.invalidErr => ServeParseOutcome.invalidErr
  | FillOutcome.underflow => ServeParseOutcome.underflow
  | FillOutcome.ok buf =>
    match requestTryFrom buf with
    | ParseOutcome.ok r => ServeParseOutcome.ok r
    | ParseOutcome.invalid => ServeParseOutcome.invalidErr
    | ParseOutcome.panicked => ServeParseOutcome.panicked

/-- Does a byte sequence hold exactly one complete framed message: a header
terminator at first position `p`, a well-formed `Content-Length` `n` in the
bytes before it (0 when the header is absent), and exactly `n` bytes after the
terminator. -/
def isFramedExactly (s : List Char) : Bool :=
  match findCRLF2 s with
  | none => false
  | some p =>
    match scanContentLength (splitOn2 '\r' '\n' (s.take p)) with
    | Except.error _ => false
    | Except.ok n => s.length == p + 4 + n

/-- The `Message` enum of the thread pool (`src/core/thread_pool.rs`); a job
is identified by an abstract token. -/
inductive PoolMessage
  | newJob (jobId : Nat)
  | terminate
deriving DecidableEq

/-- Structural model of `ThreadPool`: the worker list (one spawned thread per
entry, ids in creation order) and the single shared mpsc channel, modelled as
the FIFO list of pending messages. -/
structure ThreadPool where
  workers : List Nat
  queue : List PoolMessage
deriving DecidableEq

/-- `ThreadPool::new` (`src/core/thread_pool.rs`): `assert!(size > 0)` is the
`none` case (a panic); otherwise one channel and workers `0..size`, each
holding a clone of the shared receiver. -/
def threadPoolNew (size : Nat) : Option ThreadPool :=
  if size = 0 then none
  else some { workers := List.range size, queue := [] }

/-- `ThreadPool::execute`: send one `NewJob` message on the channel. -/
def threadPoolExecute (pool : ThreadPool) (jobId : Nat) : ThreadPool :=
  { pool with queue := pool.queue ++ [PoolMessage.newJob jobId] }

/-- The messages sent by `Drop for ThreadPool`: one `Terminate` per worker,
before any join. -/
def threadPoolDropSignals (pool : ThreadPool) : List PoolMessage :=
  List.replicate pool.workers.length PoolMessage.terminate

/-- The joins performed by `Drop for ThreadPool` after signalling: every
worker thread, in order. -/
def threadPoolDropJoins (pool : ThreadPool) : List Nat :=
  pool.workers

/-- The loop body of `Worker::new`, viewed over the stream of messages one
worker receives: execute each job, stop at `Terminate` or when the channel is
closed (recv error). Returns the jobs this worker ran. -/
def workerRun : List PoolMessage → List Nat
  | [] => []
  | PoolMessage.newJob j :: rest => j :: workerRun rest
  | PoolMessage.terminate :: _ => []

/-- Global state of the pool system for the job-dispatch argument: job ids
still in the channel (FIFO), jobs currently being executed (paired with the
worker that received them), and completed jobs. -/
structure PoolSysState where
  queue : List Nat
  running : List (Nat × Nat)
  done : List (Nat × Nat)
deriving DecidableEq

/-- Transitions of the worker loop (`Worker::new`): `recv` models one worker
taking the mutex-guarded receiver and dequeuing the next message (mpsc
delivers each message to exactly one `recv` call, in FIFO order); the side
condition says a worker that is executing a job is not back at `recv` yet.
`finish` completes a running job.  Job execution happens outside the critical
section, so distinct workers run concurrently; the interleaving is arbitrary. -/
inductive PoolStep : PoolSysState → PoolSysState → Prop
  | recv (w j : Nat) (q : List Nat) (running done : List (Nat × Nat)) :
      (∀ pr ∈ running, pr.1 ≠ w) →
      PoolStep ⟨j :: q, running, done⟩ ⟨q, (w, j) :: running, done⟩
  | finish (w j : Nat) (q : List Nat) (l1 l2 : List (Nat × Nat))
      (done : List (Nat × Nat)) :
      PoolStep ⟨q, l1 ++ (w, j) :: l2, done⟩ ⟨q, l1 ++ l2, (w, j) :: done⟩

/-- Reachability of pool-system states. -/
def poolReachable (s t : PoolSysState) : Prop :=
  Relation.ReflTransGen PoolStep s t

/-- The multiset of job ids present in a pool-system state (queued, running,
or completed). -/
def poolJobs (s : PoolSysState) : Multiset Nat :=
  (s.queue : Multiset Nat) + (↑(s.running.map Prod.snd) : Multiset Nat) +
    (↑(s.done.map Prod.snd) : Multiset Nat)

/-- Concrete `GET /` request, as built by `Request::new(Method::Get, "/")`. -/
def reqGetRoot : Request :=
  { parts := { method := Method.get, path := "/".toList, headers := [],
               pathParams := [] },
    body := none }

/-- A `GET` request with `Content-Length: 0`: the text after the
header-terminating empty line is empty. -/
def msgContentLength0 : List Char :=
  "GET / HTTP/1.1\r\nContent-Length: 0\r\n\r\n".toList

/-- The parse of `msgContentLength0`. -/
def reqContentLength0 : Request :=
  { parts := { method := Method.get, path := "/".toList,
               headers := [("Content-Length".toList, "0".toList)],
               pathParams := [] },
    body := none }

/-- A trivial 200 handler used as a concrete type-erased handler. -/
def trivialHandler : Request → Response :=
  fun _ => { statusCode := 200, headers := [], body := [] }

/-- A complete framed `GET /` message. -/
def msgGetRoot : List Char := "GET / HTTP/1.1\r\nHost: localhost\r\n\r\n".toList

/-- The parse of `msgGetRoot`. -/
def reqGetRootHost : Request :=
  { parts := { method := Method.get, path := "/".toList,
               headers := [("Host".toList, "localhost".toList)],
               pathParams := [] },
    body := none }

/-- A message whose single read delivers two body bytes although
`Content-Length` declares one. -/
def msgOverdelivered : List Char :=
  "GET / HTTP/1.1\r\nContent-Length: 1\r\n\r\nAB".toList

theorem routerFindMap_snd_none (routes : List (List Char × List (Method × (Request → Response))))
    (req : Request) (fpp : Option (List (List Char)))
    (h : ∀ pr ∈ routes, matchRoute pr.1 req.parts.path = none ∨
      pathRouterFind pr.2 req.parts.method = none) :
    (routerFindMap req routes fpp).2 = none := by
  induction routes generalizing fpp with
  | nil => rfl
  | cons hd tl ih =>
    have hhd := h hd (List.mem_cons_self hd tl)
    have htl : ∀ pr ∈ tl, matchRoute pr.1 req.parts.path = none ∨
        pathRouterFind pr.2 req.parts.method = none :=
      fun pr hpr => h pr (List.mem_cons_of_mem hd hpr)
    rcases hd with ⟨pat, pr⟩
    rcases hhd with hm | hf
    · simp only [routerFindMap, hm]
      exact ih fpp htl
    · simp only [routerFindMap]
      rcases hmr : matchRoute pat req.parts.path with _ | pp
      · exact ih fpp htl
      · simp only [hf]
        exact ih (some pp) htl

/-- Claim C1: if no registered pattern matches the request's path, or every
pattern that does match has no entry for the request's method in its
per-method table, `Router::call` returns the fixed 404 response — status 404,
the single header `Content-Type: text/plain`, body `"Not Found"` — so the two
failure cases produce identical responses. -/
theorem c1_router_unmatched_404 (router : Router) (req : Request)
    (h : ∀ pr ∈ router.routes, matchRoute pr.1 req.parts.path = none ∨
      pathRouterFind pr.2 req.parts.method = none) :
    routerCall router req = notFoundResponse ∧
    notFoundResponse.statusCode = 404 ∧
    notFoundResponse.headers = [contentTypeTextPlain] ∧
    notFoundResponse.body = litNotFound := by
  refine ⟨?_, rfl, rfl, rfl⟩
  have h2 := routerFindMap_snd_none router.routes req none h
  unfold routerCall
  rcases hfm : routerFindMap req router.routes none with ⟨fpp, ho⟩
  rw [hfm] at h2
  simp only at h2
  subst h2
  cases fpp <;> rfl

theorem c1_witness :
    routerCall
      { routes := [("/hello".toList, [(Method.get, trivialHandler)])] }
      { parts := { method := Method.post, path := "/hello".toList, headers := [],
                   pathParams := [] },
        body := none } = notFoundResponse :=
  (c1_router_unmatched_404 _ _ (by
    intro pr hpr
    rw [List.mem_singleton] at hpr
    subst hpr
    right
    rfl)).1

theorem extractErrorIntoResponse_const (e : ExtractError) :
    extractErrorIntoResponse e = badRequestResponse := rfl

theorem extractAllParts_first_error {α : Type}
    (pre : List (Parts → Except ExtractError α))
    (bad : Parts → Except ExtractError α)
    (post : List (Parts → Except ExtractError α)) (parts : Parts)
    (err : ExtractError)
    (hpre : ∀ e ∈ pre, ∃ v, e parts = Except.ok v)
    (hbad : bad parts = Except.error err) :
    extractAllParts (pre ++ bad :: post) parts = Except.error err := by
  induction pre with
  | nil => simp only [List.nil_append, extractAllParts, hbad]
  | cons e0 rest ih =>
    obtain ⟨v0, hv0⟩ := hpre e0 (List.mem_cons_self e0 rest)
    have hrest : ∀ e ∈ rest, ∃ v, e parts = Except.ok v :=
      fun e he => hpre e (List.mem_cons_of_mem e0 he)
    simp only [List.cons_append, extractAllParts, hv0, List.append_eq, ih hrest]

/-- Claim C2: dispatch extracts the leading handler arguments left to right;
when the extractor of some argument fails (all earlier ones having succeeded),
dispatch returns the fixed 400 `"Bad request"` response, and the result does
not depend on the extractors positioned after the failing one, on the final
body extractor, or on the handler function itself — so the handler is never
invoked and later arguments are never evaluated.  The same holds when the
final (body-consuming) argument's extraction fails. -/
theorem c2_extraction_short_circuit :
    (∀ (α β R : Type) (pre : List (Parts → Except ExtractError α))
      (bad : Parts → Except ExtractError α)
      (post : List (Parts → Except ExtractError α))
      (lastExtractor : Request → Except ExtractError β)
      (handlerFn : List α → β → R) (toResponse : R → Response)
      (req : Request) (err : ExtractError),
      (∀ e ∈ pre, ∃ v, e req.parts = Except.ok v) →
      bad req.parts = Except.error err →
      callHandler (pre ++ bad :: post) lastExtractor handlerFn toResponse req =
        badRequestResponse) ∧
    (∀ (α β R : Type) (leading : List (Parts → Except ExtractError α))
      (lastExtractor : Request → Except ExtractError β)
      (handlerFn : List α → β → R) (toResponse : R → Response)
      (req : Request) (err : ExtractError),
      lastExtractor req = Except.error err →
      callHandler leading lastExtractor handlerFn toResponse req =
        badRequestResponse) ∧
    badRequestResponse.statusCode = 400 ∧
    badRequestResponse.headers = [contentTypeTextPlain] ∧
    badRequestResponse.body = litBadRequest := by
  refine ⟨?_, ?_, rfl, rfl, rfl⟩
  · intro α β R pre bad post lastExtractor handlerFn toResponse req err hpre hbad
    unfold callHandler
    rw [extractAllParts_first_error pre bad post req.parts err hpre hbad]
    rfl
  · intro α β R leading lastExtractor handlerFn toResponse req err hlast
    unfold callHandler
    rcases hall : extractAllParts leading req.parts with e | vals
    · rfl
    · rw [hlast]
      rfl

theorem c2_witness :
    callHandler (α := Nat) (β := Nat) (R := Nat)
      [fun _ => Except.error {}]
      (fun _ => Except.ok 0) (fun _ _ => 0) (fun _ => trivialHandler reqGetRoot)
      reqGetRoot = badRequestResponse :=
  c2_extraction_short_circuit.1 Nat Nat Nat [] (fun _ => Except.error {}) []
    (fun _ => Except.ok 0) (fun _ _ => 0) (fun _ => trivialHandler reqGetRoot)
    reqGetRoot {} (by intro e he; cases he) rfl

theorem matchRouteGo_isSome_iff (l : List (List Char × List Char)) :
    (matchRouteGo l).isSome ↔
      ∀ seg ∈ l, seg.1.head? ≠ some ':' → seg.1 = seg.2 := by
  induction l with
  | nil => simp [matchRouteGo]
  | cons hd tl ih =>
    rcases hd with ⟨r, p⟩
    simp only [matchRouteGo, List.forall_mem_cons]
    by_cases hw : r.head? = some ':'
    · simp only [if_pos hw, Option.isSome_map']
      rw [ih]
      constructor
      · intro h
        exact ⟨fun hne => absurd hw hne, h⟩
      · intro h
        exact h.2
    · by_cases heq : r = p
      · subst heq
        rw [if_neg hw, if_pos rfl, ih]
        constructor
        · intro h
          exact ⟨fun _ => rfl, h⟩
        · intro h
          exact h.2
      · simp only [if_neg hw, if_neg heq]
        constructor
        · intro h
          cases h
        · intro h
          exact absurd (h.1 hw) heq

theorem matchRouteGo_eq_some (l : List (List Char × List Char))
    (ps : List (List Char)) (h : matchRouteGo l = some ps) :
    ps = (l.filter (fun seg => decide (seg.1.head? = some ':'))).map Prod.snd := by
  induction l generalizing ps with
  | nil =>
    have h2 : some ([] : List (List Char)) = some ps := h
    cases h2
    rfl
  | cons hd tl ih =>
    rcases hd with ⟨r, p⟩
    by_cases hw : r.head? = some ':'
    · simp only [matchRouteGo, if_pos hw] at h
      rcases hm : matchRouteGo tl with _ | ps2
      · rw [hm] at h
        cases h
      · rw [hm, Option.map_some'] at h
        cases h
        rw [List.filter_cons_of_pos (by simpa using hw), List.map_cons, ← ih ps2 hm]
    · by_cases heq : r = p
      · subst heq
        simp only [matchRouteGo, if_neg hw, if_pos rfl] at h
        rw [List.filter_cons_of_neg (by simpa using hw)]
        exact ih ps h
      · simp only [matchRouteGo, if_neg hw, if_neg heq] at h
        cases h

/-- Claim C3: `match_route` succeeds exactly when the pattern and the path
have the same number of `'/'`-delimited segments (per `extract_segments`) and
every non-wildcard pattern segment equals the corresponding path segment; on
success the returned path parameters are exactly the path segments at the
wildcard (`':'`-prefixed) positions, in left-to-right order. -/
theorem c3_match_route_spec (routePattern path : List Char) :
    ((matchRoute routePattern path).isSome ↔
      ((extractSegments routePattern).length = (extractSegments path).length ∧
        ∀ seg ∈ (extractSegments routePattern).zip (extractSegments path),
          seg.1.head? ≠ some ':' → seg.1 = seg.2)) ∧
    (∀ params, matchRoute routePattern path = some params →
      params = (((extractSegments routePattern).zip (extractSegments path)).filter
          (fun seg => decide (seg.1.head? = some ':'))).map Prod.snd) := by
  constructor
  · unfold matchRoute
    by_cases hlen : (extractSegments routePattern).length = (extractSegments path).length
    · rw [if_neg (by simpa using hlen)]
      rw [matchRouteGo_isSome_iff]
      constructor
      · intro h
        exact ⟨hlen, h⟩
      · intro h
        exact h.2
    · rw [if_pos (by simpa using hlen)]
      simp only [Option.isSome_none, Bool.false_eq_true, false_iff]
      intro h
      exact hlen h.1
  · intro params h
    unfold matchRoute at h
    by_cases hlen : (extractSegments routePattern).length = (extractSegments path).length
    · rw [if_neg (by simpa using hlen)] at h
      exact matchRouteGo_eq_some _ params h
    · rw [if_pos (by simpa using hlen)] at h
      cases h

theorem c3_witness :
    matchRoute ("/hello/:id".toList) ("/hello/5".toList) = some ["5".toList] ∧
    matchRoute ("/hello".toList) ("/hello/5".toList) = none := by
  constructor
  · have hspec := c3_match_route_spec ("/hello/:id".toList) ("/hello/5".toList)
    have hsome : (matchRoute ("/hello/:id".toList) ("/hello/5".toList)).isSome := by
      rw [hspec.1]
      exact ⟨by decide, by decide⟩
    rcases hx : matchRoute ("/hello/:id".toList) ("/hello/5".toList) with _ | ps
    · rw [hx] at hsome
      cases hsome
    · have hps := hspec.2 ps hx
      subst hps
      decide
  · have hspec := c3_match_route_spec ("/hello".toList) ("/hello/5".toList)
    rcases hx : matchRoute ("/hello".toList) ("/hello/5".toList) with _ | ps
    · rfl
    · have hsome : (matchRoute ("/hello".toList) ("/hello/5".toList)).isSome := by
        rw [hx]
        rfl
      rw [hspec.1] at hsome
      exact absurd hsome.1 (by decide)

/-- Claim C8: `ThreadPool::new(0)` panics (fails construction); for every
size `N ≥ 1` it creates exactly `N` workers (ids `0..N`), all sharing the
single job channel, which starts empty; and on destruction `Drop` sends
exactly one terminate signal per worker on that channel and then joins every
worker thread. -/
theorem c8_thread_pool_lifecycle :
    threadPoolNew 0 = none ∧
    ∀ n, 1 ≤ n → ∃ p, threadPoolNew n = some p ∧
      p.workers.length = n ∧ p.workers = List.range n ∧ p.queue = [] ∧
      threadPoolDropSignals p = List.replicate n PoolMessage.terminate ∧
      (threadPoolDropSignals p).length = p.workers.length ∧
      threadPoolDropJoins p = p.workers := by
  refine ⟨rfl, ?_⟩
  intro n hn
  have hne : n ≠ 0 := Nat.one_le_iff_ne_zero.mp hn
  refine ⟨{ workers := List.range n, queue := [] }, ?_, by simp, rfl, rfl, ?_, ?_, rfl⟩
  · unfold threadPoolNew
    rw [if_neg hne]
  · unfold threadPoolDropSignals
    simp
  · unfold threadPoolDropSignals
    simp

theorem c8_witness :
    ∃ p, threadPoolNew 4 = some p ∧
      p.workers.length = 4 ∧ p.workers = List.range 4 ∧ p.queue = [] ∧
      threadPoolDropSignals p = List.replicate 4 PoolMessage.terminate ∧
      (threadPoolDropSignals p).length = p.workers.length ∧
      threadPoolDropJoins p = p.workers :=
  c8_thread_pool_lifecycle.2 4 (by decide)

/-- Claim C10: dispatching any handler whose final parameter is the `String`
body extractor against a request without a body yields the fixed 400
`"Bad request"` response (the handler is never invoked, whatever the leading
extractors are); the extractor returns the raw body text unmodified exactly
when a body is present; and the parser produces a body-less request when the
text after the header-terminating empty line is empty, e.g. for a request
with `Content-Length: 0`. -/
theorem c10_string_extractor_body :
    (∀ (α R : Type) (leading : List (Parts → Except ExtractError α))
      (handlerFn : List α → List Char → R) (toResponse : R → Response)
      (req : Request), req.body = none →
      callHandler leading stringFromRequest handlerFn toResponse req =
        badRequestResponse) ∧
    (∀ (req : Request) (b : List Char),
      stringFromRequest req = Except.ok b ↔ req.body = some b) ∧
    requestTryFrom msgContentLength0 = ParseOutcome.ok reqContentLength0 ∧
    reqContentLength0.body = none := by
  refine ⟨?_, ?_, by decide, rfl⟩
  · intro α R leading handlerFn toResponse req hbody
    unfold callHandler
    rcases hall : extractAllParts leading req.parts with e | vals
    · rfl
    · unfold stringFromRequest
      rw [hbody]
      rfl
  · intro req b
    unfold stringFromRequest
    rcases hb : req.body with _ | b2
    · constructor
      · intro h
        cases h
      · intro h
        cases h
    · constructor
      · intro h
        cases h
        rfl
      · intro h
        cases h
        rfl

theorem c10_witness :
    callHandler (α := Nat) (R := Nat) [] stringFromRequest
      (fun _ b => b.length) (fun _ => trivialHandler reqGetRoot)
      reqContentLength0 = badRequestResponse :=
  c10_string_extractor_body.1 Nat Nat [] (fun _ b => b.length)
    (fun _ => trivialHandler reqGetRoot) reqContentLength0 rfl

theorem requestTryFrom_panicked_iff (s : List Char) :
    requestTryFrom s = ParseOutcome.panicked ↔
      ∃ m p rest, splitWhitespace ((splitOn2 '\r' '\n' s).headD []) =
          m :: p :: litHTTP20 :: rest ∧ (methodTryFrom m).isSome := by
  constructor
  · intro h
    unfold requestTryFrom at h
    split at h
    · cases h
    · rename_i line restLines hl
      split at h
      · cases h
      · rename_i m0 toks1 ht
        split at h
        · cases h
        · rename_i meth hm
          split at h
          · cases h
          · rename_i p0 toks2
            split at h
            · cases h
            · rename_i v0 toks3
              split at h
              · rename_i hv
                refine ⟨m0, p0, toks3, ?_, ?_⟩
                · rw [hl]
                  simp only [List.headD_cons]
                  rw [ht, hv]
                · rw [hm]
                  rfl
              · split at h
                · cases h
                · split at h
                  · cases h
                  · cases h
  · rintro ⟨m, p, rest, habs, hsome⟩
    rcases hmeth : methodTryFrom m with _ | meth
    · rw [hmeth] at hsome
      simp at hsome
    · unfold requestTryFrom
      split
      · rename_i hl
        rw [hl] at habs
        simp [splitWhitespace, splitWhitespaceAux] at habs
      · rename_i line restLines hl
        rw [hl] at habs
        simp only [List.headD_cons] at habs
        rw [habs]
        simp only [hmeth, if_true, eq_self_iff_true]

theorem requestTryFrom_ok_shape (s : List Char) (r : Request)
    (h : requestTryFrom s = ParseOutcome.ok r) :
    (splitWhitespace ((splitOn2 '\r' '\n' s).headD [])).length = 3 ∧
    (methodTryFrom ((splitWhitespace ((splitOn2 '\r' '\n' s).headD [])).headD [])).isSome := by
  unfold requestTryFrom at h
  split at h
  · cases h
  · rename_i line restLines hl
    split at h
    · cases h
    · rename_i m0 toks1 ht
      split at h
      · cases h
      · rename_i meth hm
        split at h
        · cases h
        · rename_i p0 toks2
          split at h
          · cases h
          · rename_i v0 toks3
            split at h
            · cases h
            · split at h
              · cases h
              · rename_i hv h3
                have h3e : toks3 = [] := not_not.mp h3
                subst h3e
                rw [hl]
                simp only [List.headD_cons]
                rw [ht]
                refine ⟨rfl, ?_⟩
                simp only [List.headD_cons]
                rw [hm]
                rfl

/-- Claim C4 (amended): request parsing does not validate the protocol
version except against the literal `HTTP/2.0`: `Request::try_from` panics
(`unimplemented!`) exactly when the request line's first token is a
recognized method and the third token is `HTTP/2.0` — a panic that escapes
`parse_request`, so the connection loop does not handle it by logging and
closing — while any other version token is silently accepted, e.g.
`GET / HTTP/1.0` parses successfully. -/
theorem c4_version_check_amended :
    (∀ s, requestTryFrom s = ParseOutcome.panicked ↔
      ∃ m p rest, splitWhitespace ((splitOn2 '\r' '\n' s).headD []) =
          m :: p :: litHTTP20 :: rest ∧ (methodTryFrom m).isSome) ∧
    requestTryFrom ("GET / HTTP/1.0\r\n\r\n".toList) = ParseOutcome.ok
      { parts := { method := Method.get, path := "/".toList, headers := [],
                   pathParams := [] }, body := none } :=
  ⟨requestTryFrom_panicked_iff, by decide⟩

/-- Counterexample to claim C4 as stated: `GET / HTTP/1.0` is accepted (so
parsing does not accept only `HTTP/1.1`), and `GET / HTTP/2.0` does not yield
a recoverable error condition but the `unimplemented!` panic. -/
theorem c4_counterexample :
    requestTryFrom ("GET / HTTP/1.0\r\n\r\n".toList) = ParseOutcome.ok
      { parts := { method := Method.get, path := "/".toList, headers := [],
                   pathParams := [] }, body := none } ∧
    requestTryFrom ("GET / HTTP/2.0\r\n\r\n".toList) = ParseOutcome.panicked := by
  constructor
  · decide
  · decide

theorem c4_witness :
    requestTryFrom ("POST /x HTTP/2.0\r\n\r\n".toList) = ParseOutcome.panicked :=
  (c4_version_check_amended.1 _).mpr
    ⟨"POST".toList, "/x".toList, [], by decide, by decide⟩

/-- Claim C5 (amended): `Request::try_from` returns the uniform
invalid-request error whenever the first line does not consist of exactly
three whitespace-separated tokens or the method token is unrecognized —
except when a recognized method is followed by `HTTP/2.0` as the third token,
in which case the `unimplemented!` panic fires before the fourth-token check
(so `GET / HTTP/2.0 extra` panics instead of returning the error). -/
theorem c5_invalid_request_line_amended (s : List Char)
    (hbad : (splitWhitespace ((splitOn2 '\r' '\n' s).headD [])).length ≠ 3 ∨
      methodTryFrom ((splitWhitespace ((splitOn2 '\r' '\n' s).headD [])).headD []) = none)
    (hnp : (splitWhitespace ((splitOn2 '\r' '\n' s).headD [])).get? 2 ≠ some litHTTP20 ∨
      methodTryFrom ((splitWhitespace ((splitOn2 '\r' '\n' s).headD [])).headD []) = none) :
    requestTryFrom s = ParseOutcome.invalid := by
  rcases hout : requestTryFrom s with r | _ | _
  · exfalso
    obtain ⟨hlen, hsome⟩ := requestTryFrom_ok_shape s r hout
    rcases hbad with hb | hb
    · exact hb hlen
    · rw [hb] at hsome
      simp at hsome
  · rfl
  · exfalso
    obtain ⟨m, p, rest, heq, hsome⟩ := (requestTryFrom_panicked_iff s).mp hout
    rcases hnp with hn | hn
    · apply hn
      rw [heq]
      rfl
    · rw [heq] at hn
      simp only [List.headD_cons] at hn
      rw [hn] at hsome
      simp at hsome

/-- Counterexample to claim C5 as stated: the first line of
`GET / HTTP/2.0 extra` has four tokens, yet parsing panics (the `HTTP/2.0`
check precedes the token-count check) instead of returning the uniform
invalid-request error. -/
theorem c5_counterexample :
    requestTryFrom ("GET / HTTP/2.0 extra\r\n\r\n".toList) = ParseOutcome.panicked ∧
    requestTryFrom ("GET / HTTP/2.0 extra\r\n\r\n".toList) ≠ ParseOutcome.invalid := by
  constructor
  · decide
  · decide

theorem c5_witness :
    requestTryFrom ("GET /\r\n\r\n".toList) = ParseOutcome.invalid :=
  c5_invalid_request_line_amended _ (Or.inl (by decide)) (Or.inl (by decide))

theorem poolStep_jobs {a b : PoolSysState} (h : PoolStep a b) :
    poolJobs b = poolJobs a := by
  cases h with
  | recv w j q running done hidle =>
    simp only [poolJobs, List.map_cons]
    simp [Multiset.cons_add, Multiset.add_cons]
  | finish w j q l1 l2 done =>
    simp only [poolJobs, List.map_append, List.map_cons]
    simp [Multiset.cons_add, Multiset.add_cons]
    exact List.Perm.append_left q (List.Perm.append_left _ List.perm_middle)

theorem poolReachable_jobs {a b : PoolSysState} (h : poolReachable a b) :
    poolJobs b = poolJobs a := by
  induction h with
  | refl => rfl
  | tail hab hbc ih =>
    rw [poolStep_jobs hbc]
    exact ih

theorem filter_snd_singleton (l : List (Nat × Nat)) (j : Nat)
    (hnd : (l.map Prod.snd).Nodup) (hj : j ∈ l.map Prod.snd) :
    ∃ w, l.filter (fun pr => pr.2 == j) = [(w, j)] := by
  induction l with
  | nil => simp at hj
  | cons hd tl ih =>
    rcases hd with ⟨w0, j0⟩
    simp only [List.map_cons, List.nodup_cons] at hnd
    by_cases hej : j0 = j
    · subst hej
      refine ⟨w0, ?_⟩
      rw [List.filter_cons_of_pos (by simp)]
      have hnil : tl.filter (fun pr => pr.2 == j0) = [] := by
        rw [List.filter_eq_nil_iff]
        intro pr hpr
        simp only [beq_iff_eq]
        intro heq
        exact hnd.1 (List.mem_map.mpr ⟨pr, hpr, heq⟩)
      rw [hnil]
    · simp only [List.map_cons, List.mem_cons] at hj
      rcases hj with hj | hj
      · exact absurd hj.symm hej
      · obtain ⟨w, hw⟩ := ih hnd.2 hj
        refine ⟨w, ?_⟩
        rw [List.filter_cons_of_neg (by simp [hej])]
        exact hw

/-- Claim C9: in the pool-system model, from an initial state with the
submitted jobs queued, any reachable quiescent state (empty channel, no job
executing) has completed exactly the submitted jobs as a multiset — no job
lost, none duplicated — and, when the submitted job ids are distinct, each
job was executed by exactly one worker, exactly once. -/
theorem c9_jobs_exactly_once (jobs : List Nat) (s : PoolSysState)
    (hreach : poolReachable { queue := jobs, running := [], done := [] } s)
    (hq : s.queue = []) (hr : s.running = []) :
    (s.done.map Prod.snd).Perm jobs ∧
    (jobs.Nodup → ∀ j ∈ jobs, ∃ w,
      s.done.filter (fun pr => pr.2 == j) = [(w, j)]) := by
  have hinv := poolReachable_jobs hreach
  simp only [poolJobs, hq, hr, List.map_nil] at hinv
  have hperm : (s.done.map Prod.snd).Perm jobs := by
    rw [← Multiset.coe_eq_coe]
    simpa using hinv
  refine ⟨hperm, ?_⟩
  intro hnd j hj
  exact filter_snd_singleton s.done j (hperm.nodup_iff.mpr hnd)
    ((hperm.mem_iff).mpr hj)

theorem c9_witness :
    (([((1:Nat),(1:Nat)), (0, 0)]).map Prod.snd).Perm [0, 1] := by
  have t1 : PoolStep ⟨[0, 1], [], []⟩ ⟨[1], [(0, 0)], []⟩ :=
    PoolStep.recv 0 0 [1] [] [] (by intro pr hpr; cases hpr)
  have t2 : PoolStep ⟨[1], [(0, 0)], []⟩ ⟨[1], [], [(0, 0)]⟩ :=
    PoolStep.finish 0 0 [1] [] [] []
  have t3 : PoolStep ⟨[1], [], [(0, 0)]⟩ ⟨[], [(1, 1)], [(0, 0)]⟩ :=
    PoolStep.recv 1 1 [] [] [(0, 0)] (by intro pr hpr; cases hpr)
  have t4 : PoolStep ⟨[], [(1, 1)], [(0, 0)]⟩ ⟨[], [], [(1, 1), (0, 0)]⟩ :=
    PoolStep.finish 1 1 [] [] [] [(0, 0)]
  have hreach : poolReachable ⟨[0, 1], [], []⟩ ⟨[], [], [(1, 1), (0, 0)]⟩ :=
    Relation.ReflTransGen.tail
      (Relation.ReflTransGen.tail
        (Relation.ReflTransGen.tail
          (Relation.ReflTransGen.tail Relation.ReflTransGen.refl t1) t2) t3) t4
  exact (c9_jobs_exactly_once [0, 1] ⟨[], [], [(1, 1), (0, 0)]⟩ hreach rfl rfl).1

theorem length_termSeq : termSeq.length = 4 := rfl

theorem startsWithSeq_iff (s l : List Char) :
    startsWithSeq s l = true ↔ l.take s.length = s := by
  induction s generalizing l with
  | nil => simp [startsWithSeq]
  | cons a s ih =>
    cases l with
    | nil => simp [startsWithSeq]
    | cons b l2 =>
      simp only [startsWithSeq, List.length_cons, List.take_succ_cons,
        Bool.and_eq_true, decide_eq_true_eq, List.cons.injEq]
      rw [ih]
      constructor
      · rintro ⟨h1, h2⟩
        exact ⟨h1.symm, h2⟩
      · rintro ⟨h1, h2⟩
        exact ⟨h1.symm, h2⟩

theorem ne_termSeq_of_length_lt {x : List Char} (h : x.length < 4) :
    x ≠ termSeq := by
  intro he
  rw [he, length_termSeq] at h
  omega

theorem findCRLF2_eq_some_iff (l : List Char) (p : Nat) :
    findCRLF2 l = some p ↔
      ((l.drop p).take 4 = termSeq ∧ ∀ q < p, (l.drop q).take 4 ≠ termSeq) := by
  induction l generalizing p with
  | nil =>
    simp only [findCRLF2, List.drop_nil, List.take_nil]
    constructor
    · intro h
      cases h
    · rintro ⟨h, -⟩
      exact absurd h (by decide)
  | cons c rest ih =>
    have hunf : findCRLF2 (c :: rest) =
        if startsWithSeq termSeq (c :: rest) then some 0
        else Option.map (fun n => n + 1) (findCRLF2 rest) := rfl
    by_cases hs : startsWithSeq termSeq (c :: rest) = true
    · rw [hunf, if_pos hs]
      have hterm : (c :: rest).take 4 = termSeq := by
        have h4 := (startsWithSeq_iff termSeq (c :: rest)).mp hs
        rwa [length_termSeq] at h4
      cases p with
      | zero =>
        simp only [List.drop_zero]
        constructor
        · intro _
          exact ⟨hterm, fun q hq => absurd hq (Nat.not_lt_zero q)⟩
        · intro _
          trivial
      | succ k =>
        constructor
        · intro h
          simp at h
        · rintro ⟨-, hmin⟩
          exact absurd hterm (by simpa using hmin 0 (Nat.succ_pos k))
    · rw [hunf, if_neg hs]
      have hterm : ¬((c :: rest).take 4 = termSeq) := by
        intro hct
        exact hs ((startsWithSeq_iff termSeq (c :: rest)).mpr
          (by rwa [length_termSeq]))
      cases p with
      | zero =>
        simp only [List.drop_zero]
        constructor
        · intro h
          rcases Option.map_eq_some'.mp h with ⟨a, -, ha⟩
          exact absurd ha (by omega)
        · rintro ⟨h, -⟩
          exact absurd h hterm
      | succ k =>
        rw [List.drop_succ_cons]
        constructor
        · intro h
          rcases Option.map_eq_some'.mp h with ⟨a, hfa, ha⟩
          have hak : a = k := by omega
          rw [hak] at hfa
          obtain ⟨h1, h2⟩ := (ih k).mp hfa
          refine ⟨h1, ?_⟩
          intro q hq
          cases q with
          | zero =>
            simpa using hterm
          | succ j =>
            rw [List.drop_succ_cons]
            exact h2 j (by omega)
        · rintro ⟨h1, h2⟩
          have hrest : findCRLF2 rest = some k := by
            apply (ih k).mpr
            refine ⟨h1, ?_⟩
            intro j hj
            have hj2 := h2 (j + 1) (by omega)
            rwa [List.drop_succ_cons] at hj2
          rw [hrest]
          rfl

theorem findCRLF2_eq_none_iff (l : List Char) :
    findCRLF2 l = none ↔ ∀ q, (l.drop q).take 4 ≠ termSeq := by
  induction l with
  | nil =>
    simp only [findCRLF2, List.drop_nil, List.take_nil]
    constructor
    · intro _ q
      exact (by decide)
    · intro _
      trivial
  | cons c rest ih =>
    have hunf : findCRLF2 (c :: rest) =
        if startsWithSeq termSeq (c :: rest) then some 0
        else Option.map (fun n => n + 1) (findCRLF2 rest) := rfl
    by_cases hs : startsWithSeq termSeq (c :: rest) = true
    · rw [hunf, if_pos hs]
      have hterm : (c :: rest).take 4 = termSeq := by
        have h4 := (startsWithSeq_iff termSeq (c :: rest)).mp hs
        rwa [length_termSeq] at h4
      constructor
      · intro h
        cases h
      · intro h
        exact absurd hterm (by simpa using h 0)
    · rw [hunf, if_neg hs]
      have hterm : ¬((c :: rest).take 4 = termSeq) := by
        intro hct
        exact hs ((startsWithSeq_iff termSeq (c :: rest)).mpr
          (by rwa [length_termSeq]))
      constructor
      · intro h q
        have hrest : findCRLF2 rest = none := by
          rcases hx : findCRLF2 rest with _ | a
          · rfl
          · rw [hx] at h
            cases h
        cases q with
        | zero =>
          simpa using hterm
        | succ j =>
          rw [List.drop_succ_cons]
          exact (ih.mp hrest) j
      · intro h
        have hrest : findCRLF2 rest = none := by
          apply ih.mpr
          intro j
          have hj := h (j + 1)
          rwa [List.drop_succ_cons] at hj
        rw [hrest]
        rfl

theorem findCRLF2_length_le {l : List Char} {p : Nat} (h : findCRLF2 l = some p) :
    p + 4 ≤ l.length := by
  obtain ⟨h1, -⟩ := (findCRLF2_eq_some_iff l p).mp h
  have hlen := congrArg List.length h1
  rw [List.length_take, List.length_drop, length_termSeq] at hlen
  have h3 := Nat.min_le_right 4 (l.length - p)
  rw [hlen] at h3
  omega

theorem findCRLF2_append {l t : List Char} {p : Nat} (h : findCRLF2 l = some p) :
    findCRLF2 (l ++ t) = some p := by
  obtain ⟨h1, h2⟩ := (findCRLF2_eq_some_iff l p).mp h
  have hle := findCRLF2_length_le h
  apply (findCRLF2_eq_some_iff (l ++ t) p).mpr
  constructor
  · rw [List.drop_append_of_le_length (by omega),
      List.take_append_of_le_length (by rw [List.length_drop]; omega)]
    exact h1
  · intro q hq
    rw [List.drop_append_of_le_length (by omega),
      List.take_append_of_le_length (by rw [List.length_drop]; omega)]
    exact h2 q hq

theorem findCRLF2_take_of_le {l : List Char} {p m : Nat} (h : findCRLF2 l = some p)
    (hm : p + 4 ≤ m) : findCRLF2 (l.take m) = some p := by
  obtain ⟨h1, h2⟩ := (findCRLF2_eq_some_iff l p).mp h
  apply (findCRLF2_eq_some_iff _ p).mpr
  constructor
  · rw [List.drop_take, List.take_take, show 4 ⊓ (m - p) = 4 from by
      rw [inf_eq_min]
      omega]
    exact h1
  · intro q hq
    rw [List.drop_take, List.take_take, show 4 ⊓ (m - q) = 4 from by
      rw [inf_eq_min]
      omega]
    exact h2 q hq

theorem findCRLF2_take_of_lt {l : List Char} {p m : Nat} (h : findCRLF2 l = some p)
    (hm : m < p + 4) : findCRLF2 (l.take m) = none := by
  obtain ⟨h1, h2⟩ := (findCRLF2_eq_some_iff l p).mp h
  apply (findCRLF2_eq_none_iff _).mpr
  intro q
  rw [List.drop_take, List.take_take]
  by_cases hq : q < p
  · by_cases h4 : 4 ≤ m - q
    · rw [show 4 ⊓ (m - q) = 4 from by
        rw [inf_eq_min]
        omega]
      exact h2 q hq
    · apply ne_termSeq_of_length_lt
      rw [List.length_take]
      rw [inf_eq_min, inf_eq_min]
      omega
  · apply ne_termSeq_of_length_lt
    rw [List.length_take]
    rw [inf_eq_min, inf_eq_min]
    omega

theorem isFramedExactly_iff (s : List Char) :
    isFramedExactly s = true ↔
      ∃ p n, findCRLF2 s = some p ∧
        scanContentLength (splitOn2 '\r' '\n' (s.take p)) = Except.ok n ∧
        s.length = p + 4 + n := by
  constructor
  · intro h
    unfold isFramedExactly at h
    split at h
    · cases h
    · rename_i p hf
      split at h
      · cases h
      · rename_i n hsc
        exact ⟨p, n, hf, hsc, by simpa using h⟩
  · rintro ⟨p, n, hf, hsc, hlen⟩
    unfold isFramedExactly
    split
    · rename_i hf2
      rw [hf2] at hf
      cases hf
    · rename_i p2 hf2
      rw [hf2] at hf
      cases hf
      split
      · rename_i e hsc2
        rw [hsc2] at hsc
        cases hsc
      · rename_i n2 hsc2
        rw [hsc2] at hsc
        cases hsc
        simpa using hlen

theorem fillBody_ok_iff (chunks : List (List Char)) (buffer : List Char)
    (cl : Nat) (out : List Char) :
    fillBody buffer cl chunks = FillOutcome.ok out ↔
      ∃ k, k ≤ chunks.length ∧ (∀ c ∈ chunks.take k, c ≠ []) ∧
        out = buffer ++ (chunks.take k).flatten ∧
        cl = ((chunks.take k).flatten).length := by
  induction chunks generalizing buffer cl with
  | nil =>
    simp only [fillBody]
    by_cases hcl : cl = 0
    · subst hcl
      rw [if_pos rfl]
      constructor
      · intro h
        cases h
        exact ⟨0, by omega, by simp, by simp, by simp⟩
      · rintro ⟨k, hk, -, hout, -⟩
        have hk0 : k = 0 := by simpa using hk
        subst hk0
        simp only [List.take_zero, List.flatten_nil, List.append_nil] at hout
        rw [hout]
    · rw [if_neg hcl]
      constructor
      · intro h
        cases h
      · rintro ⟨k, hk, -, -, hlen⟩
        have hk0 : k = 0 := by simpa using hk
        subst hk0
        simp only [List.take_zero, List.flatten_nil, List.length_nil] at hlen
        exact absurd hlen hcl
  | cons chunk rest ih =>
    simp only [fillBody]
    by_cases hcl : cl = 0
    · subst hcl
      rw [if_pos rfl]
      constructor
      · intro h
        cases h
        exact ⟨0, by omega, by simp, by simp, by simp⟩
      · rintro ⟨k, hk, hne, hout, hlen⟩
        cases k with
        | zero =>
          simp only [List.take_zero, List.flatten_nil, List.append_nil] at hout
          rw [hout]
        | succ k2 =>
          exfalso
          rw [List.take_succ_cons, List.flatten_cons, List.length_append] at hlen
          have hc0 := hne chunk (by rw [List.take_succ_cons]; exact List.mem_cons_self _ _)
          have hchunk0 : chunk.length = 0 := by omega
          exact hc0 (List.length_eq_zero.mp hchunk0)
    · rw [if_neg hcl]
      by_cases hch : chunk = []
      · rw [if_pos hch]
        constructor
        · intro h
          cases h
        · rintro ⟨k, hk, hne, hout, hlen⟩
          cases k with
          | zero =>
            simp only [List.take_zero, List.flatten_nil, List.length_nil] at hlen
            exact absurd hlen hcl
          | succ k2 =>
            exact absurd hch (hne chunk (by rw [List.take_succ_cons]; exact List.mem_cons_self _ _))
      · rw [if_neg hch]
        by_cases hover : cl < chunk.length
        · rw [if_pos hover]
          constructor
          · intro h
            cases h
          · rintro ⟨k, hk, hne, hout, hlen⟩
            cases k with
            | zero =>
              simp only [List.take_zero, List.flatten_nil, List.length_nil] at hlen
              exact absurd hlen hcl
            | succ k2 =>
              rw [List.take_succ_cons, List.flatten_cons, List.length_append] at hlen
              omega
        · rw [if_neg hover]
          rw [ih (buffer ++ chunk) (cl - chunk.length)]
          constructor
          · rintro ⟨k2, hk2, hne2, hout2, hlen2⟩
            refine ⟨k2 + 1, by simpa using hk2, ?_, ?_, ?_⟩
            · intro c hc
              rw [List.take_succ_cons] at hc
              rcases List.mem_cons.mp hc with hc | hc
              · rw [hc]
                exact hch
              · exact hne2 c hc
            · rw [List.take_succ_cons, List.flatten_cons, ← List.append_assoc]
              exact hout2
            · rw [List.take_succ_cons, List.flatten_cons, List.length_append]
              omega
          · rintro ⟨k, hk, hne, hout, hlen⟩
            cases k with
            | zero =>
              simp only [List.take_zero, List.flatten_nil, List.length_nil] at hlen
              exact absurd hlen hcl
            | succ k2 =>
              rw [List.take_succ_cons, List.flatten_cons] at hout hlen
              refine ⟨k2, by simpa using hk, ?_, ?_, ?_⟩
              · intro c hc
                exact hne c (by rw [List.take_succ_cons]; exact List.mem_cons_of_mem _ hc)
              · rw [hout, List.append_assoc]
              · rw [List.length_append] at hlen
                omega

theorem frame_exists_shift (chunk : List Char) (rest : List (List Char))
    (buffer out : List Char) (hch : chunk ≠ []) (hpre : findCRLF2 buffer = none) :
    (∃ k, k ≤ (chunk :: rest).length ∧ (∀ c ∈ (chunk :: rest).take k, c ≠ []) ∧
        out = buffer ++ ((chunk :: rest).take k).flatten ∧
        isFramedExactly out = true) ↔
      ∃ k2, k2 ≤ rest.length ∧ (∀ c ∈ rest.take k2, c ≠ []) ∧
        out = (buffer ++ chunk) ++ (rest.take k2).flatten ∧
        isFramedExactly out = true := by
  constructor
  · rintro ⟨k, hk, hne, hout, hframe⟩
    cases k with
    | zero =>
      exfalso
      simp only [List.take_zero, List.flatten_nil, List.append_nil] at hout
      subst hout
      obtain ⟨p, n, hf, -, -⟩ := (isFramedExactly_iff _).mp hframe
      rw [hpre] at hf
      cases hf
    | succ k2 =>
      rw [List.take_succ_cons, List.flatten_cons, ← List.append_assoc] at hout
      refine ⟨k2, by simpa using hk, ?_, hout, hframe⟩
      intro c hc
      exact hne c (by rw [List.take_succ_cons]; exact List.mem_cons_of_mem _ hc)
  · rintro ⟨k2, hk2, hne2, hout2, hframe⟩
    refine ⟨k2 + 1, by simpa using hk2, ?_, ?_, hframe⟩
    · intro c hc
      rw [List.take_succ_cons] at hc
      rcases List.mem_cons.mp hc with hc | hc
      · rw [hc]
        exact hch
      · exact hne2 c hc
    · rw [List.take_succ_cons, List.flatten_cons, ← List.append_assoc]
      exact hout2

theorem framed_suffix_length (buffer2 out tail : List Char) (p cl : Nat)
    (hf2 : findCRLF2 buffer2 = some p)
    (hsc : scanContentLength (splitOn2 '\r' '\n' (buffer2.take p)) = Except.ok cl)
    (hout : out = buffer2 ++ tail)
    (hframe : isFramedExactly out = true) :
    out.length = p + 4 + cl := by
  obtain ⟨p', n', hf', hsc', hlen'⟩ := (isFramedExactly_iff out).mp hframe
  have hp4 : p + 4 ≤ buffer2.length := findCRLF2_length_le hf2
  have hfp : findCRLF2 out = some p := by
    rw [hout]
    exact findCRLF2_append hf2
  rw [hfp] at hf'
  cases hf'
  have hscp : scanContentLength (splitOn2 '\r' '\n' (out.take p)) = Except.ok cl := by
    rw [hout, List.take_append_of_le_length (by omega)]
    exact hsc
  rw [hscp] at hsc'
  cases hsc'
  exact hlen'

theorem fillBody_framed_iff (rest : List (List Char)) (buffer2 out : List Char)
    (p cl : Nat) (hf2 : findCRLF2 buffer2 = some p)
    (hsc : scanContentLength (splitOn2 '\r' '\n' (buffer2.take p)) = Except.ok cl)
    (hnov : buffer2.length ≤ p + 4 + cl) :
    fillBody buffer2 (cl - (buffer2.length - (p + 4))) rest = FillOutcome.ok out ↔
      ∃ k2, k2 ≤ rest.length ∧ (∀ c ∈ rest.take k2, c ≠ []) ∧
        out = buffer2 ++ (rest.take k2).flatten ∧ isFramedExactly out = true := by
  have hp4 : p + 4 ≤ buffer2.length := findCRLF2_length_le hf2
  rw [fillBody_ok_iff]
  constructor
  · rintro ⟨k2, hk2, hne2, hout2, hlen2⟩
    refine ⟨k2, hk2, hne2, hout2, ?_⟩
    apply (isFramedExactly_iff out).mpr
    refine ⟨p, cl, ?_, ?_, ?_⟩
    · rw [hout2]
      exact findCRLF2_append hf2
    · rw [hout2, List.take_append_of_le_length (by omega)]
      exact hsc
    · have hlo := congrArg List.length hout2
      rw [List.length_append] at hlo
      omega
  · rintro ⟨k2, hk2, hne2, hout2, hframe⟩
    refine ⟨k2, hk2, hne2, hout2, ?_⟩
    have hl := framed_suffix_length buffer2 out _ p cl hf2 hsc hout2 hframe
    have hlo := congrArg List.length hout2
    rw [List.length_append] at hlo
    omega

theorem fillHeaders_ok_iff (chunks : List (List Char)) (buffer : List Char)
    (out : List Char) (hpre : findCRLF2 buffer = none) :
    fillHeaders buffer chunks = FillOutcome.ok out ↔
      ∃ k, k ≤ chunks.length ∧ (∀ c ∈ chunks.take k, c ≠ []) ∧
        out = buffer ++ (chunks.take k).flatten ∧ isFramedExactly out = true := by
  induction chunks generalizing buffer with
  | nil =>
    simp only [fillHeaders]
    constructor
    · intro h
      cases h
    · rintro ⟨k, hk, -, hout, hframe⟩
      have hk0 : k = 0 := by simpa using hk
      subst hk0
      simp only [List.take_zero, List.flatten_nil, List.append_nil] at hout
      subst hout
      obtain ⟨p, n, hf, -, -⟩ := (isFramedExactly_iff _).mp hframe
      rw [hpre] at hf
      cases hf
  | cons chunk rest ih =>
    simp only [fillHeaders]
    by_cases hch : chunk = []
    · rw [if_pos hch]
      constructor
      · intro h
        cases h
      · rintro ⟨k, hk, hne, hout, hframe⟩
        cases k with
        | zero =>
          simp only [List.take_zero, List.flatten_nil, List.append_nil] at hout
          subst hout
          obtain ⟨p, n, hf, -, -⟩ := (isFramedExactly_iff _).mp hframe
          rw [hpre] at hf
          cases hf
        | succ k2 =>
          exact absurd hch
            (hne chunk (by rw [List.take_succ_cons]; exact List.mem_cons_self _ _))
    · rw [if_neg hch]
      rw [frame_exists_shift chunk rest buffer out hch hpre]
      split
      · rename_i hf2
        exact ih (buffer ++ chunk) hf2
      · rename_i p hf2
        split
        · rename_i e hsc
          constructor
          · intro h
            cases h
          · rintro ⟨k2, hk2, hne2, hout2, hframe⟩
            exfalso
            obtain ⟨p', n', hf', hsc', hlen'⟩ := (isFramedExactly_iff out).mp hframe
            have hp4 : p + 4 ≤ (buffer ++ chunk).length := findCRLF2_length_le hf2
            have hfp : findCRLF2 out = some p := by
              rw [hout2]
              exact findCRLF2_append hf2
            rw [hfp] at hf'
            cases hf'
            rw [hout2, List.take_append_of_le_length (by omega), hsc] at hsc'
            cases hsc'
        · rename_i cl hsc
          have hp4 : p + 4 ≤ (buffer ++ chunk).length := findCRLF2_length_le hf2
          by_cases hgt : (buffer ++ chunk).length > p + 4
          · rw [if_pos hgt]
            by_cases hover : cl < (buffer ++ chunk).length - (p + 4)
            · rw [if_pos hover]
              constructor
              · intro h
                cases h
              · rintro ⟨k2, hk2, hne2, hout2, hframe⟩
                exfalso
                have hl := framed_suffix_length (buffer ++ chunk) out _ p cl hf2 hsc
                  hout2 hframe
                have hlo := congrArg List.length hout2
                rw [List.length_append] at hlo
                omega
            · rw [if_neg hover]
              exact fillBody_framed_iff rest (buffer ++ chunk) out p cl hf2 hsc (by omega)
          · rw [if_neg hgt]
            have hz : cl - ((buffer ++ chunk).length - (p + 4)) = cl := by omega
            have hiff := fillBody_framed_iff rest (buffer ++ chunk) out p cl hf2 hsc (by omega)
            rwa [hz] at hiff

theorem fillBuffer_ok_iff (chunks : List (List Char)) (out : List Char) :
    fillBuffer chunks = FillOutcome.ok out ↔
      ∃ k, k ≤ chunks.length ∧ (∀ c ∈ chunks.take k, c ≠ []) ∧
        out = (chunks.take k).flatten ∧ isFramedExactly out = true := by
  have h := fillHeaders_ok_iff chunks [] out rfl
  simpa [fillBuffer] using h

theorem scanContentLength_absent (lines : List (List Char))
    (h : ∀ l ∈ lines, startsWithSeq litContentLengthColon l = false) :
    scanContentLength lines = Except.ok 0 := by
  induction lines with
  | nil => rfl
  | cons l rest ih =>
    have hl := h l (List.mem_cons_self l rest)
    have hrest := ih (fun l2 hl2 => h l2 (List.mem_cons_of_mem l hl2))
    simp [scanContentLength, hl, hrest]

/-- Claim C6 (amended): `fill_buffer` returns the accumulated bytes exactly
when, after some number of reads (none of which is a zero-byte read), the
accumulator holds the header terminator, a well-formed `Content-Length` `n`
(defaulting to 0 when the header is absent), and exactly `n` bytes past the
terminator; the first such read cut-off is where it stops.  The claim's "at
least `n` bytes" fails: a read that over-delivers past headers + terminator +
`Content-Length` makes the unsigned subtraction underflow instead of
returning (see the counterexample). -/
theorem c6_fill_buffer_amended :
    (∀ (chunks : List (List Char)) (out : List Char),
      fillBuffer chunks = FillOutcome.ok out ↔
        ∃ k, k ≤ chunks.length ∧ (∀ c ∈ chunks.take k, c ≠ []) ∧
          out = (chunks.take k).flatten ∧ isFramedExactly out = true) ∧
    (∀ lines, (∀ l ∈ lines, startsWithSeq litContentLengthColon l = false) →
      scanContentLength lines = Except.ok 0) :=
  ⟨fillBuffer_ok_iff, scanContentLength_absent⟩

/-- Counterexample to claim C6 as stated: a single read delivering the
terminator plus two body bytes against `Content-Length: 1` has accumulated
the terminator and at least one byte past it, yet `fill_buffer` hits the
unsigned-subtraction underflow instead of returning the accumulated bytes. -/
theorem c6_counterexample :
    fillBuffer [msgOverdelivered] = FillOutcome.underflow ∧
    findCRLF2 msgOverdelivered = some 33 ∧
    scanContentLength (splitOn2 '\r' '\n' (msgOverdelivered.take 33)) =
      Except.ok 1 ∧
    33 + 4 + 1 ≤ msgOverdelivered.length := by
  refine ⟨by decide, by decide, by rfl, by decide⟩

theorem c6_witness :
    fillBuffer [msgGetRoot] = FillOutcome.ok msgGetRoot :=
  (c6_fill_buffer_amended.1 [msgGetRoot] msgGetRoot).mpr
    ⟨1, by decide, by decide, by decide, by decide⟩

/-- Claim C7: a well-formed HTTP message (exactly framed, parsing to a
request) delivered to the framer split at arbitrary chunk boundaries — any
partition into successive non-empty reads — produces via `parse_request` the
identical parsed `Request` as delivering the entire message in a single
contiguous read. -/
theorem c7_chunking_equivalence (msg : List Char) (chunks : List (List Char))
    (r : Request) (hframe : isFramedExactly msg = true)
    (hjoin : chunks.flatten = msg) (hne : ∀ c ∈ chunks, c ≠ [])
    (hparse : requestTryFrom msg = ParseOutcome.ok r) :
    parseRequestChunks chunks = ServeParseOutcome.ok r ∧
    parseRequestChunks [msg] = ServeParseOutcome.ok r := by
  have hmsgne : msg ≠ [] := by
    obtain ⟨p, n, hf, -, -⟩ := (isFramedExactly_iff msg).mp hframe
    intro he
    rw [he] at hf
    cases hf
  have h1 : fillBuffer chunks = FillOutcome.ok msg :=
    (fillBuffer_ok_iff chunks msg).mpr
      ⟨chunks.length, le_refl _, by simpa [List.take_length] using hne,
        by rw [List.take_length, hjoin], hframe⟩
  have h2 : fillBuffer [msg] = FillOutcome.ok msg :=
    (fillBuffer_ok_iff [msg] msg).mpr
      ⟨1, by simp, by simpa using hmsgne, by simp, hframe⟩
  constructor
  · simp [parseRequestChunks, h1, hparse]
  · simp [parseRequestChunks, h2, hparse]

theorem c7_witness :
    parseRequestChunks [("GET / HT".toList), ("TP/1.1\r".toList),
      ("\nHost: localhost\r\n\r\n".toList)] = ServeParseOutcome.ok reqGetRootHost ∧
    parseRequestChunks [msgGetRoot] = ServeParseOutcome.ok reqGetRootHost :=
  c7_chunking_equivalence msgGetRoot
    [("GET / HT".toList), ("TP/1.1\r".toList), ("\nHost: localhost\r\n\r\n".toList)]
    reqGetRootHost (by decide) (by decide) (by decide) (by decide)
